import Mathlib

/-!
Verification of `src/image_to_rgb_array.py`, a script that converts a decoded
raster image (a matrix of 8-bit RGB pixel vectors) into a C array of 16-bit
RGB565 values.

The embedding models:
* `rgb_vec_to_num` — packs one pixel vector into a single RGB565 number.
  Python indexing `vec[0]` raises `IndexError` on a too-short vector, so the
  embedding returns an `Option Nat` that is `none` exactly when an index is
  out of range.  Python integers are unbounded, so channels are `Nat` with
  exact shift semantics.
* `write_to_carray` — serializes a matrix of packed values.  The file handle
  is external I/O; the embedding produces the exact text that the Python
  function writes to the file, in the order it is written.
* `load_image_as_rgb` — maps `rgb_vec_to_num` over every pixel of the decoded
  image (the nested `for` loops filling `arr[i,j]`), failing if any pixel
  vector is too short.
* `main_pipeline` — the tail of `main` after argument parsing: decoding is
  delegated to an external collaborator, so it is a parameter (an
  `Except`-value); there is no `try`/`except` anywhere in `main`, so a decode
  error propagates unchanged and no output text is produced.
-/

namespace ImageToRgbArray

/-- Embedding of `rgb_vec_to_num` (src/image_to_rgb_array.py lines 48-60):
reads components 0, 1, 2 of the pixel vector, truncates them to 5, 6 and 5
bits by right shifts, and recombines with left shifts and `+`. -/
def rgb_vec_to_num (vec : List Nat) : Option Nat := do
  let r := (← vec[0]?) >>> 3
  let g := (← vec[1]?) >>> 2
  let b := (← vec[2]?) >>> 3
  return (r <<< 11) + (g <<< 5) + (b <<< 0)

/-- Embedding of the `var_values` accumulation in `write_to_carray`
(lines 35-38): the nested loops append `str(cell)` for every cell in
row-major order. -/
def carray_values (num_matrix : List (List Nat)) : List String :=
  (num_matrix.map (fun row => row.map (fun cell => toString cell))).flatten

/-- Embedding of `write_to_carray` (lines 26-45): the exact concatenation of
the strings written to the output file, in order. -/
def write_to_carray (num_matrix : List (List Nat)) (array_name : String) : String :=
  let var_start := "unsigned short int " ++ array_name ++ " [] = \x7b\n\t"
  let var_end := "\x7d;\n"
  let var_values := carray_values num_matrix
  "// Auto generated image header file\n" ++ var_start ++
    (String.intercalate ",\n\t" var_values ++ "\n") ++ var_end

/-- Embedding of `load_image_as_rgb` (lines 63-80) restricted to the part the
repository owns: the decoded image is already given as a matrix of pixel
vectors, and the nested loops fill `arr[i,j] = rgb_vec_to_num(vec)` for every
pixel in order. -/
def load_image_as_rgb (im : List (List (List Nat))) : Option (List (List Nat)) :=
  im.mapM (fun im_row => im_row.mapM (fun vec => rgb_vec_to_num vec))

/-- Embedding of the conversion part of `main` (lines 101-102): the decoder
result is supplied by the external `imageio` collaborator, `main` installs no
handler, and the output text exists only if every stage succeeds. -/
def main_pipeline (decode_result : Except String (List (List (List Nat))))
    (array_name : String) : Except String String := do
  let im ← decode_result
  match load_image_as_rgb im with
  | some arr => pure (write_to_carray arr array_name)
  | none => Except.error "IndexError"

/-- Unfolding lemma: on a pixel vector with at least three components the
packing function succeeds and returns the 5-6-5 combination. -/
theorem rgb_vec_to_num_cons (r g b : Nat) (rest : List Nat) :
    rgb_vec_to_num (r :: g :: b :: rest) =
      some (((r >>> 3) <<< 11) + ((g >>> 2) <<< 5) + ((b >>> 3) <<< 0)) := by
  simp [rgb_vec_to_num]

/-- C3: the packer sends white to 65535, black to 0, and the truncated
triple (248, 252, 248) to the same value as white. -/
theorem pack_concrete_values :
    rgb_vec_to_num [255, 255, 255] = some 65535 ∧
    rgb_vec_to_num [0, 0, 0] = some 0 ∧
    rgb_vec_to_num [248, 252, 248] = rgb_vec_to_num [255, 255, 255] := by
  refine ⟨?_, ?_, ?_⟩ <;> decide

/-- Helper: a sum of three disjoint shifted fields equals their bitwise or,
provided the green field fits in 6 bits and the blue field in 5 bits. -/
theorem shift_sum_eq_or (a c d : Nat) (hc : c < 64) (hd : d < 32) :
    a <<< 11 + c <<< 5 + d <<< 0 = a <<< 11 ||| c <<< 5 ||| d <<< 0 := by
  have h2 : 2 ^ 5 * c + d = 2 ^ 5 * c ||| d :=
    Nat.mul_add_lt_is_or (show d < 2 ^ 5 from hd) c
  have h3 : 2 ^ 11 * a + (2 ^ 5 * c + d) = 2 ^ 11 * a ||| (2 ^ 5 * c + d) :=
    Nat.mul_add_lt_is_or (show 2 ^ 5 * c + d < 2 ^ 11 by omega) a
  rw [Nat.or_assoc]
  simp only [Nat.shiftLeft_eq, Nat.pow_zero, Nat.mul_one]
  calc a * 2 ^ 11 + c * 2 ^ 5 + d = 2 ^ 11 * a + (2 ^ 5 * c + d) := by ring
    _ = 2 ^ 11 * a ||| (2 ^ 5 * c + d) := h3
    _ = 2 ^ 11 * a ||| (2 ^ 5 * c ||| d) := by rw [h2]
    _ = a * 2 ^ 11 ||| (c * 2 ^ 5 ||| d) := by rw [Nat.mul_comm a, Nat.mul_comm c]

/-- Helper: the truncated green channel fits in 6 bits. -/
theorem green_field_lt (g : Nat) (hg : g < 256) : g >>> 2 < 64 := by
  rw [Nat.shiftRight_eq_div_pow]; norm_num; omega

/-- Helper: a truncated red or blue channel fits in 5 bits. -/
theorem blue_field_lt (b : Nat) (hb : b < 256) : b >>> 3 < 32 := by
  rw [Nat.shiftRight_eq_div_pow]; norm_num; omega

/-- C1: for 8-bit channels the packed value equals the or of the three
shifted truncated fields, so red occupies bits 15-11, green bits 10-5 and
blue bits 4-0. -/
theorem pack_bit_layout (r g b : Nat) (_hr : r < 256) (hg : g < 256) (hb : b < 256) :
    rgb_vec_to_num [r, g, b] =
      some ((r >>> 3) <<< 11 ||| (g >>> 2) <<< 5 ||| (b >>> 3) <<< 0) := by
  rw [rgb_vec_to_num_cons, shift_sum_eq_or _ _ _ (green_field_lt g hg) (blue_field_lt b hb)]

/-- Witness for C1 at the concrete triple (12, 34, 56). -/
theorem pack_bit_layout_witness :
    rgb_vec_to_num [12, 34, 56] =
      some ((12 >>> 3) <<< 11 ||| (34 >>> 2) <<< 5 ||| (56 >>> 3) <<< 0) :=
  pack_bit_layout 12 34 56 (by decide) (by decide) (by decide)

set_option maxRecDepth 100000 in
/-- Helper: masking an 8-bit value with 0xF8 does not change its top 5 bits. -/
theorem mask_shift_red : ∀ r < 256, (r &&& 248) >>> 3 = r >>> 3 := by decide

set_option maxRecDepth 100000 in
/-- Helper: masking an 8-bit value with 0xFC does not change its top 6 bits. -/
theorem mask_shift_green : ∀ g < 256, (g &&& 252) >>> 2 = g >>> 2 := by decide

/-- C5: packing is idempotent under channel truncation: the packed value of
(r, g, b) equals the packed value of (r and 0xF8, g and 0xFC, b and 0xF8). -/
theorem pack_quantization_idempotent (r g b : Nat)
    (hr : r < 256) (hg : g < 256) (hb : b < 256) :
    rgb_vec_to_num [r, g, b] = rgb_vec_to_num [r &&& 0xF8, g &&& 0xFC, b &&& 0xF8] := by
  rw [rgb_vec_to_num_cons, rgb_vec_to_num_cons,
    mask_shift_red r hr, mask_shift_green g hg, mask_shift_red b hb]

/-- Witness for C5 at the concrete triple (17, 200, 255). -/
theorem pack_quantization_idempotent_witness :
    rgb_vec_to_num [17, 200, 255] =
      rgb_vec_to_num [17 &&& 0xF8, 200 &&& 0xFC, 255 &&& 0xF8] :=
  pack_quantization_idempotent 17 200 255 (by decide) (by decide) (by decide)

/-- C6: reconstructing each channel from the packed value (extract the 5- or
6-bit field, shift back to 8 bits) loses at most 7 for red and blue and at
most 3 for green; the reconstruction never exceeds the original, so these
are absolute error bounds. -/
theorem pack_roundtrip_error_bound (r g b p : Nat)
    (hr : r < 256) (hg : g < 256) (hb : b < 256)
    (hp : rgb_vec_to_num [r, g, b] = some p) :
    ((p >>> 11) % 32) <<< 3 ≤ r ∧ r - ((p >>> 11) % 32) <<< 3 ≤ 7 ∧
    ((p >>> 5) % 64) <<< 2 ≤ g ∧ g - ((p >>> 5) % 64) <<< 2 ≤ 3 ∧
    (p % 32) <<< 3 ≤ b ∧ b - (p % 32) <<< 3 ≤ 7 := by
  rw [rgb_vec_to_num_cons, Option.some_inj] at hp
  simp only [Nat.shiftLeft_eq, Nat.shiftRight_eq_div_pow, Nat.shiftLeft_zero] at hp ⊢
  norm_num at hp ⊢
  omega

/-- Witness for C6 at the concrete triple (200, 100, 50), packed as 52006. -/
theorem pack_roundtrip_error_bound_witness :
    ((52006 >>> 11) % 32) <<< 3 ≤ 200 ∧ 200 - ((52006 >>> 11) % 32) <<< 3 ≤ 7 ∧
    ((52006 >>> 5) % 64) <<< 2 ≤ 100 ∧ 100 - ((52006 >>> 5) % 64) <<< 2 ≤ 3 ∧
    (52006 % 32) <<< 3 ≤ 50 ∧ 50 - (52006 % 32) <<< 3 ≤ 7 :=
  pack_roundtrip_error_bound 200 100 50 52006
    (by decide) (by decide) (by decide) (by decide)

/-- Helper: indexing below the cut commutes with `List.take`. -/
theorem getElem?_take_of_lt {α : Type} (l : List α) (i n : Nat) (h : i < n) :
    (l.take n)[i]? = l[i]? := by
  induction l generalizing i n with
  | nil => simp
  | cons a t ih =>
    cases n with
    | zero => omega
    | succ n =>
      cases i with
      | zero => simp [List.take_succ_cons]
      | succ i => simp [List.take_succ_cons, ih i n (by omega)]

/-- C10 (general part): the packed value depends only on components 0, 1 and
2 of the pixel vector; any trailing components, such as an alpha channel,
have no influence. -/
theorem pack_depends_on_first_three (v w : List Nat) (h : v.take 3 = w.take 3) :
    rgb_vec_to_num v = rgb_vec_to_num w := by
  have h0 : v[0]? = w[0]? := by
    rw [← getElem?_take_of_lt v 0 3 (by omega), ← getElem?_take_of_lt w 0 3 (by omega), h]
  have h1 : v[1]? = w[1]? := by
    rw [← getElem?_take_of_lt v 1 3 (by omega), ← getElem?_take_of_lt w 1 3 (by omega), h]
  have h2 : v[2]? = w[2]? := by
    rw [← getElem?_take_of_lt v 2 3 (by omega), ← getElem?_take_of_lt w 2 3 (by omega), h]
  simp only [rgb_vec_to_num, h0, h1, h2]

/-- Witness for C10: an RGBA pixel is accepted and its alpha component is
ignored. -/
theorem pack_depends_on_first_three_witness :
    ([10, 20, 30, 255] : List Nat).take 3 = ([10, 20, 30] : List Nat).take 3 ∧
    rgb_vec_to_num [10, 20, 30, 255] = rgb_vec_to_num [10, 20, 30] :=
  ⟨by decide, pack_depends_on_first_three _ _ (by decide)⟩

/-- C8: when the external decoder fails, the failure propagates out of the
pipeline unchanged and no output text is produced. -/
theorem decode_error_propagates (e : String) (array_name : String) :
    main_pipeline (Except.error e) array_name = Except.error e := rfl

/-- Rendering of the spec's serialization wording (section 4.2 of the spec):
one entry per line with a single leading tab, a comma after every entry that
another entry follows, and no comma after the last entry. -/
def spec_lines : List String → String
  | [] => ""
  | [v] => "\t" ++ v ++ "\n"
  | v :: rest => "\t" ++ v ++ ",\n" ++ spec_lines rest

/-- Rendering of the spec's full output block: comment line, declaration
opener, the entry lines, then the closing brace line. -/
def serialize_spec (values : List String) (name : String) : String :=
  "// Auto generated image header file\n" ++
    ("unsigned short int " ++ name ++ " [] = \x7b\n") ++ spec_lines values ++ "\x7d;\n"

/-- Helper: the accumulator of `String.intercalate.go` factors out on the
left. -/
theorem intercalate_go_append (x y s : String) (t : List String) :
    String.intercalate.go (x ++ y) s t = x ++ String.intercalate.go y s t := by
  induction t generalizing y with
  | nil => rfl
  | cons a u ih =>
    show String.intercalate.go (x ++ y ++ s ++ a) s u =
      x ++ String.intercalate.go (y ++ s ++ a) s u
    rw [String.append_assoc x y s, String.append_assoc x (y ++ s) a, ih]

/-- Helper: unfolding `String.intercalate` over a list with at least two
elements. -/
theorem intercalate_cons_cons (s a b : String) (t : List String) :
    String.intercalate s (a :: b :: t) = (a ++ s) ++ String.intercalate s (b :: t) := by
  show String.intercalate.go (a ++ s ++ b) s t = (a ++ s) ++ String.intercalate.go b s t
  exact intercalate_go_append (a ++ s) b s t

/-- Helper: the tab-prefixed comma-newline-tab join used by
`write_to_carray` produces exactly the line rendering of the spec. -/
theorem tab_intercalate (l : List String) (h : l ≠ []) :
    "\t" ++ (String.intercalate ",\n\t" l ++ "\n") = spec_lines l := by
  induction l with
  | nil => simp at h
  | cons v t ih =>
    cases t with
    | nil =>
      show "\t" ++ (v ++ "\n") = "\t" ++ v ++ "\n"
      rw [String.append_assoc]
    | cons w u =>
      have ih' := ih (by simp)
      have hs : spec_lines (v :: w :: u) = "\t" ++ v ++ ",\n" ++ spec_lines (w :: u) := rfl
      rw [hs, ← ih', intercalate_cons_cons]
      rw [show (",\n\t" : String) = ",\n" ++ "\t" from rfl]
      simp only [String.append_assoc]

/-- C4: on any matrix with at least one entry, the text emitted by
`write_to_carray` is exactly the block the spec describes: the comment line,
the opener naming the array, one tab-led entry per line with commas between
consecutive entries and none after the last, then the closing brace. -/
theorem write_to_carray_matches_spec_layout (m : List (List Nat)) (name : String)
    (h : carray_values m ≠ []) :
    write_to_carray m name = serialize_spec (carray_values m) name := by
  simp only [write_to_carray, serialize_spec]
  rw [← tab_intercalate _ h]
  rw [show (" [] = \x7b\n\t" : String) = " [] = \x7b\n" ++ "\t" from rfl]
  simp only [String.append_assoc]

/-- Witness for C4 on the 2x1 matrix with entries 7 and 8. -/
theorem write_to_carray_matches_spec_layout_witness :
    carray_values [[7], [8]] ≠ [] ∧
    write_to_carray [[7], [8]] "img" = serialize_spec (carray_values [[7], [8]]) "img" :=
  ⟨by decide, write_to_carray_matches_spec_layout [[7], [8]] "img" (by decide)⟩

/-- C7: a 1x1 matrix serializes to exactly one entry, and the text after that
entry is a newline directly followed by the closing brace, with no comma. -/
theorem one_by_one_no_trailing_comma (v : Nat) (name : String) :
    (carray_values [[v]]).length = 1 ∧
    write_to_carray [[v]] name =
      "// Auto generated image header file\n" ++ "unsigned short int " ++ name ++
        " [] = \x7b\n\t" ++ toString v ++ "\n" ++ "\x7d;\n" := by
  constructor
  · rfl
  · simp only [write_to_carray, carray_values, List.map, List.flatten, List.append_nil]
    rw [show String.intercalate ",\n\t" [toString v] = toString v from rfl]
    simp only [String.append_assoc]

/-- C9: a matrix with zero rows is serialized without any validation error:
the entry list is empty and the output is the comment line, the opener, a
body holding only a tab and a newline, and the closing brace. -/
theorem zero_rows_output (name : String) :
    carray_values [] = [] ∧
    write_to_carray [] name =
      "// Auto generated image header file\n" ++ "unsigned short int " ++ name ++
        " [] = \x7b\n" ++ "\t\n" ++ "\x7d;\n" := by
  constructor
  · rfl
  · simp only [write_to_carray, carray_values, List.map, List.flatten]
    rw [show String.intercalate ",\n\t" [] = "" from rfl,
      show (" [] = \x7b\n\t" : String) = " [] = \x7b\n" ++ "\t" from rfl,
      show ("\t\n" : String) = "\t" ++ "\n" from rfl]
    simp only [String.append_assoc, String.empty_append]

/-- Helper: a successful `mapM` over `Option` preserves the length. -/
theorem mapM_option_length {α β : Type} (f : α → Option β) :
    ∀ (l : List α) (ys : List β), l.mapM f = some ys → ys.length = l.length := by
  intro l
  induction l with
  | nil =>
    intro ys h
    simp only [List.mapM_nil] at h
    cases h
    rfl
  | cons a t ih =>
    intro ys h
    rw [List.mapM_cons] at h
    cases hfa : f a with
    | none => rw [hfa] at h; simp at h
    | some b =>
      rw [hfa] at h
      cases hmt : t.mapM f with
      | none => rw [hmt] at h; simp at h
      | some bs =>
        rw [hmt] at h
        simp at h
        subst h
        simp [ih bs hmt]

/-- Helper: a successful `mapM` over `Option` maps positions pointwise. -/
theorem mapM_option_getElem {α β : Type} (f : α → Option β) :
    ∀ (l : List α) (ys : List β), l.mapM f = some ys →
      ∀ k : Nat, ys[k]? = (l[k]?).bind f := by
  intro l
  induction l with
  | nil =>
    intro ys h k
    simp only [List.mapM_nil] at h
    cases h
    simp
  | cons a t ih =>
    intro ys h k
    rw [List.mapM_cons] at h
    cases hfa : f a with
    | none => rw [hfa] at h; simp at h
    | some b =>
      rw [hfa] at h
      cases hmt : t.mapM f with
      | none => rw [hmt] at h; simp at h
      | some bs =>
        rw [hmt] at h
        simp at h
        subst h
        cases k with
        | zero => simp [hfa]
        | succ k => simp [ih bs hmt k]

/-- Helper: every element of a successful `mapM` image comes from an element
of the source list. -/
theorem mapM_option_mem {α β : Type} (f : α → Option β) :
    ∀ (l : List α) (ys : List β), l.mapM f = some ys →
      ∀ y ∈ ys, ∃ x ∈ l, f x = some y := by
  intro l
  induction l with
  | nil =>
    intro ys h y hy
    simp only [List.mapM_nil] at h
    cases h
    simp at hy
  | cons a t ih =>
    intro ys h y hy
    rw [List.mapM_cons] at h
    cases hfa : f a with
    | none => rw [hfa] at h; simp at h
    | some b =>
      rw [hfa] at h
      cases hmt : t.mapM f with
      | none => rw [hmt] at h; simp at h
      | some bs =>
        rw [hmt] at h
        simp at h
        subst h
        rcases hy with _ | hy
        · exact ⟨a, List.mem_cons_self a t, hfa⟩
        · obtain ⟨x, hx, hfx⟩ := ih bs hmt y (by assumption)
          exact ⟨x, List.mem_cons_of_mem a hx, hfx⟩

/-- Helper: the length of the flattening of a list of rows of uniform
width. -/
theorem flatten_length_uniform {α : Type} (W : Nat) :
    ∀ (l : List (List α)), (∀ r ∈ l, r.length = W) →
      l.flatten.length = l.length * W := by
  intro l
  induction l with
  | nil => simp
  | cons r t ih =>
    intro h
    have hr : r.length = W := h r (List.mem_cons_self r t)
    have ht := ih (fun x hx => h x (List.mem_cons_of_mem r hx))
    simp only [List.flatten_cons, List.length_append, List.length_cons, hr, ht]
    ring

/-- Helper: position `i * W + j` of the flattening of uniform-width rows is
position `j` of row `i`. -/
theorem flatten_getElem_uniform {α : Type} (W : Nat) :
    ∀ (l : List (List α)) (i j : Nat), (∀ r ∈ l, r.length = W) →
      i < l.length → j < W →
      l.flatten[i * W + j]? = (l[i]?).bind (fun r => r[j]?) := by
  intro l
  induction l with
  | nil =>
    intro i j _ hi _
    simp at hi
  | cons r t ih =>
    intro i j h hi hj
    have hr : r.length = W := h r (List.mem_cons_self r t)
    cases i with
    | zero =>
      rw [Nat.zero_mul, Nat.zero_add, List.flatten_cons,
        List.getElem?_append_left (by omega)]
      simp
    | succ i =>
      rw [show (i + 1) * W + j = r.length + (i * W + j) by rw [hr]; ring,
        List.flatten_cons, List.getElem?_append_right (Nat.le_add_right _ _),
        Nat.add_sub_cancel_left]
      have ht := ih i j (fun x hx => h x (List.mem_cons_of_mem r hx))
        (by simpa using Nat.lt_of_succ_lt_succ (by simpa using hi)) hj
      simpa using ht

/-- C2: a successful conversion of an image whose rows all have width W
yields a serialized entry list of exactly `height * W` entries, and the entry
at linear index `i * W + j` is the decimal representation of the packed value
of the source pixel at row i, column j. -/
theorem serialized_entries_row_major (im : List (List (List Nat))) (W : Nat)
    (hW : ∀ row ∈ im, row.length = W)
    (arr : List (List Nat)) (harr : load_image_as_rgb im = some arr)
    (i j : Nat) (hi : i < im.length) (hj : j < W) :
    (carray_values arr).length = im.length * W ∧
    (carray_values arr)[i * W + j]? =
      (im[i]?.bind (fun row => row[j]?.bind (fun vec => rgb_vec_to_num vec))).map
        (fun n => toString n) := by
  have hlen : arr.length = im.length := mapM_option_length _ im arr harr
  have harr_rows : ∀ rrow ∈ arr, rrow.length = W := by
    intro rrow hmem
    obtain ⟨row, hrowmem, hrow⟩ := mapM_option_mem _ im arr harr rrow hmem
    rw [mapM_option_length _ row rrow hrow, hW row hrowmem]
  have hmapped : ∀ s ∈ arr.map (fun row => row.map (fun cell => toString cell)),
      s.length = W := by
    intro s hs
    rw [List.mem_map] at hs
    obtain ⟨rrow, hmem, hse⟩ := hs
    rw [← hse, List.length_map]
    exact harr_rows rrow hmem
  constructor
  · rw [carray_values, flatten_length_uniform W _ hmapped, List.length_map, hlen]
  · rw [carray_values,
      flatten_getElem_uniform W _ i j hmapped (by rw [List.length_map, hlen]; exact hi) hj,
      List.getElem?_map]
    rw [mapM_option_getElem _ im arr harr i]
    cases him : im[i]? with
    | none =>
      have := List.getElem?_eq_none_iff.mp him
      omega
    | some row =>
      simp only [Option.some_bind]
      cases hrow : row.mapM (fun vec => rgb_vec_to_num vec) with
      | none =>
        have harr' : im.mapM (fun im_row => im_row.mapM (fun vec => rgb_vec_to_num vec)) =
            some arr := harr
        have harri := mapM_option_getElem
          (fun im_row => im_row.mapM (fun vec => rgb_vec_to_num vec)) im arr harr' i
        rw [him, Option.some_bind, hrow] at harri
        have := List.getElem?_eq_none_iff.mp harri
        omega
      | some prow =>
        simp only [Option.map_some', Option.some_bind]
        rw [List.getElem?_map, mapM_option_getElem _ row prow hrow j]

/-- Witness for C2 on a 1x2 image holding a white then a black pixel. -/
theorem serialized_entries_row_major_witness :
    (carray_values [[65535, 0]]).length = 1 * 2 ∧
    (carray_values [[65535, 0]])[0 * 2 + 1]? =
      (([[[255, 255, 255], [0, 0, 0]]] : List (List (List Nat)))[0]?.bind
        (fun row => row[1]?.bind (fun vec => rgb_vec_to_num vec))).map
        (fun n => toString n) :=
  serialized_entries_row_major [[[255, 255, 255], [0, 0, 0]]] 2
    (by decide) [[65535, 0]] (by decide) 0 1 (by decide) (by decide)

end ImageToRgbArray
